import Mathlib

/-!
Shallow embedding of the LRU proxy cache from src/proxy_cache.c and
src/proxy_cache.h.

Modelling conventions:
* `cache_element` carries the owned key (`url`), the payload bytes (`data`)
  and the recorded byte length (`len`).  The intrusive `next`/`prev` pointers
  of the C struct are represented by the position of the element inside the
  engine's recency list (head of the Lean list = most recently used, last
  element = least recently used / tail).
* `proxy_cache_t.list` is the doubly linked recency list read from `head` to
  `tail`; `proxy_cache_t.map` is the key set of the hash map.  The hash map of
  the C code stores, for each key, a pointer to the very node that is threaded
  on the recency list, so a map lookup is resolved through that shared node:
  `mapFind` succeeds exactly when the key is in the map and yields the node of
  the list carrying that key.
* `current_size` is a C `size_t`; all arithmetic on it is performed modulo
  2 ^ 64 through `addW` and `subW`, exactly as the unsigned C operations do.
* The eviction `while` loops of `cache_add` are embedded with an explicit
  fuel argument (`evict_loop`); a `none` result means the fuel was exhausted
  with the loop condition still true, so any `some` result is the value the C
  loop actually computes.
* Allocation failures (`calloc`/`strdup`/`malloc` returning NULL) are embedded
  in `cache_addA`, which takes one success flag per allocation site and also
  reports how many heap objects the call allocated, how many of those it freed
  again, and how many it retained inside the cache structures.
* `cache_find` returns, besides the state and its result, the number of times
  the call acquired (and released) the mutex: 0 on the early NULL-argument
  return, 1 on every other path.
-/

namespace ProxyCache

/-- MAX_CACHE_SIZE from proxy_cache.h (`#define MAX_CACHE_SIZE 100`). -/
def MAX_CACHE_SIZE : Nat := 100

/-- Modulus of the C type `size_t` on the 64-bit targets of this code. -/
def USIZE : Nat := 2 ^ 64

/-- `size_t` addition (wraps modulo 2^64). -/
def addW (a b : Nat) : Nat := (a + b) % USIZE

/-- `size_t` subtraction (wraps modulo 2^64). -/
def subW (a b : Nat) : Nat := (a + (USIZE - b % USIZE)) % USIZE

/-- The struct `cache_element` of proxy_cache.h: owned key string, owned
payload buffer and its length.  `next`/`prev` are implicit in the list
position. -/
structure cache_element where
  url : String
  data : List Nat
  len : Nat
deriving DecidableEq

/-- The struct `proxy_cache_t` of proxy_cache.c: the recency list (head =
most recently used first), the key set of the URL map, and the running
`current_size`.  The mutex has no sequential content. -/
structure proxy_cache_t where
  list : List cache_element
  map : List String
  current_size : Nat
deriving DecidableEq

/-- The URL keys of a list of entries, in list order. -/
def urls (l : List cache_element) : List String := l.map (fun e => e.url)

/-- Sum of the `len` fields of a list of entries. -/
def sumLens (l : List cache_element) : Nat := (l.map (fun e => e.len)).sum

/-- Sum of `len` over all entries reachable from the index (the map). -/
def indexSum (s : proxy_cache_t) : Nat :=
  sumLens (s.list.filter (fun e => s.map.contains e.url))

/-- `detach_node_unlocked` of proxy_cache.c: unlink the node from the
recency list (no-op when the node is not on the list). -/
def detach_node_unlocked (e : cache_element) (l : List cache_element) :
    List cache_element :=
  l.filter (fun x => x.url != e.url)

/-- `attach_node_to_head_unlocked` of proxy_cache.c: the node becomes the
new head (most recently used). -/
def attach_node_to_head_unlocked (e : cache_element) (l : List cache_element) :
    List cache_element :=
  e :: l

/-- `map_erase` of the hash map: drop the key (the map frees the key copy and
the element through its destructor callbacks). -/
def map_erase (m : List String) (u : String) : List String :=
  m.filter (fun k => k != u)

/-- `map_find` of the hash map: the map holds, for a stored key, a pointer to
the node threaded on the recency list, so a hit resolves to that node. -/
def mapFind (s : proxy_cache_t) (u : String) : Option cache_element :=
  if u ∈ s.map then s.list.find? (fun e => e.url == u) else none

/-- `remove_lru_element_unlocked` of proxy_cache.c: if the list is empty this
is a no-op, otherwise the tail is detached, its `len` subtracted from
`current_size`, and its key erased from the map. -/
def remove_lru_element_unlocked (s : proxy_cache_t) : proxy_cache_t :=
  match s.list.getLast? with
  | none => s
  | some lru =>
      { list := s.list.dropLast
        map := map_erase s.map lru.url
        current_size := subW s.current_size lru.len }

/-- The eviction `while` loop of `cache_add`:
`while (current_size + length > MAX_CACHE_SIZE) remove_lru_element_unlocked()`,
with explicit fuel; `none` means the fuel ran out with the condition still
true, so a `some` result is the state the C loop terminates in. -/
def evict_loop (length : Nat) : Nat → proxy_cache_t → Option proxy_cache_t
  | 0, s => if MAX_CACHE_SIZE < addW s.current_size length then none else some s
  | fuel + 1, s =>
      if MAX_CACHE_SIZE < addW s.current_size length then
        evict_loop length fuel (remove_lru_element_unlocked s)
      else some s

/-- `cache_init` of proxy_cache.c: empty list, empty map, zero size. -/
def cache_init : proxy_cache_t := ⟨[], [], 0⟩

/-- `cache_find` of proxy_cache.c.  Result: the state after the call, the
returned pointer, and the number of times the mutex was acquired (0 on the
early NULL return, 1 otherwise).  On a hit the node is detached and
re-attached at the head of the recency list. -/
def cache_find (s : proxy_cache_t) (url : Option String) :
    proxy_cache_t × Option cache_element × Nat :=
  match url with
  | none => (s, none, 0)
  | some u =>
      match mapFind s u with
      | none => (s, none, 1)
      | some e =>
          ({ s with
              list := attach_node_to_head_unlocked e (detach_node_unlocked e s.list) },
            some e, 1)

/-- CASE 1 (update) of `cache_add`, all allocations succeeding: subtract the
old length, run the eviction loop, detach the node, replace its payload and
length, add the new length, re-attach at the head.  The map is not touched on
this path. -/
def cache_add_update (s : proxy_cache_t) (existing : cache_element)
    (d : List Nat) (length fuel : Nat) : Option proxy_cache_t :=
  let s1 : proxy_cache_t := { s with current_size := subW s.current_size existing.len }
  match evict_loop length fuel s1 with
  | none => none
  | some s2 =>
      let s3 : proxy_cache_t := { s2 with list := detach_node_unlocked existing s2.list }
      some { s3 with
              list := attach_node_to_head_unlocked
                ⟨existing.url, d.take length, length⟩ s3.list
              current_size := addW s3.current_size length }

/-- CASE 2 (insert) of `cache_add`, all allocations succeeding: run the
eviction loop, build the new entry (key copy, payload copy of `length` bytes),
attach it at the head, insert its key into the map, add `length` to the
size. -/
def cache_add_insert (s : proxy_cache_t) (u : String) (d : List Nat)
    (length fuel : Nat) : Option proxy_cache_t :=
  match evict_loop length fuel s with
  | none => none
  | some s2 =>
      some { s2 with
              list := attach_node_to_head_unlocked ⟨u, d.take length, length⟩ s2.list
              map := u :: s2.map
              current_size := addW s2.current_size length }

/-- Body of `cache_add` once the lock is held: dispatch on `map_find`. -/
def cache_add_locked (s : proxy_cache_t) (u : String) (d : List Nat)
    (length fuel : Nat) : Option proxy_cache_t :=
  match mapFind s u with
  | some existing => cache_add_update s existing d length fuel
  | none => cache_add_insert s u d length fuel

/-- `cache_add` of proxy_cache.c (all allocations succeeding).  A NULL key, a
NULL payload, a zero length or a length above `MAX_CACHE_SIZE` is rejected
before the lock is taken and the call is a no-op. -/
def cache_add (s : proxy_cache_t) (url : Option String)
    (data : Option (List Nat)) (length fuel : Nat) : Option proxy_cache_t :=
  match url, data with
  | some u, some d =>
      if length = 0 ∨ MAX_CACHE_SIZE < length then some s
      else cache_add_locked s u d length fuel
  | _, _ => some s

/-- CASE 1 (update) of `cache_add` with an explicit allocation outcome for
`malloc(length)`.  On failure the code erases the existing entry from the map
(`map_erase`) and returns.  The three counters report heap objects allocated
during the call, freed again during the call, and retained inside the
structures. -/
def cache_add_updateA (reallocOk : Bool) (s : proxy_cache_t)
    (existing : cache_element) (d : List Nat) (length fuel : Nat) :
    Option (proxy_cache_t × Nat × Nat × Nat) :=
  let s1 : proxy_cache_t := { s with current_size := subW s.current_size existing.len }
  match evict_loop length fuel s1 with
  | none => none
  | some s2 =>
      let s3 : proxy_cache_t := { s2 with list := detach_node_unlocked existing s2.list }
      if reallocOk then
        some ({ s3 with
                 list := attach_node_to_head_unlocked
                   ⟨existing.url, d.take length, length⟩ s3.list
                 current_size := addW s3.current_size length }, 1, 0, 1)
      else
        some ({ s3 with map := map_erase s3.map existing.url }, 0, 0, 0)

/-- CASE 2 (insert) of `cache_add` with explicit allocation outcomes for
`calloc` (the entry struct), `strdup` (the key copy) and `malloc` (the payload
buffer).  On `calloc` failure nothing was allocated; on a later failure the
code frees the key copy, the buffer and the struct (`free` is NULL-tolerant).
Counters as in `cache_add_updateA`. -/
def cache_add_insertA (callocOk urlOk dataOk : Bool) (s : proxy_cache_t)
    (u : String) (d : List Nat) (length fuel : Nat) :
    Option (proxy_cache_t × Nat × Nat × Nat) :=
  match evict_loop length fuel s with
  | none => none
  | some s2 =>
      if callocOk then
        if urlOk && dataOk then
          some ({ s2 with
                   list := attach_node_to_head_unlocked ⟨u, d.take length, length⟩ s2.list
                   map := u :: s2.map
                   current_size := addW s2.current_size length }, 3, 0, 3)
        else
          some (s2,
            1 + (if urlOk then 1 else 0) + (if dataOk then 1 else 0),
            (if urlOk then 1 else 0) + (if dataOk then 1 else 0) + 1,
            0)
      else
        some (s2, 0, 0, 0)

/-- `cache_add` with explicit allocation outcomes (see `cache_add_updateA`
and `cache_add_insertA`). -/
def cache_addA (callocOk urlOk dataOk reallocOk : Bool) (s : proxy_cache_t)
    (url : Option String) (data : Option (List Nat)) (length fuel : Nat) :
    Option (proxy_cache_t × Nat × Nat × Nat) :=
  match url, data with
  | some u, some d =>
      if length = 0 ∨ MAX_CACHE_SIZE < length then some (s, 0, 0, 0)
      else
        match mapFind s u with
        | some existing => cache_add_updateA reallocOk s existing d length fuel
        | none => cache_add_insertA callocOk urlOk dataOk s u d length fuel
  | _, _ => some (s, 0, 0, 0)

/-- Well-formed engine state: distinct keys on the list, the map keys are
exactly the keys threaded on the list, and `current_size` is the exact sum of
the stored lengths and within the capacity.  This is the state every completed
operation of the spec is supposed to preserve. -/
def wf (s : proxy_cache_t) : Prop :=
  (urls s.list).Nodup ∧
  (∀ u ∈ s.map, u ∈ urls s.list) ∧
  (∀ u ∈ urls s.list, u ∈ s.map) ∧
  s.current_size = sumLens s.list ∧
  s.current_size ≤ MAX_CACHE_SIZE

instance wf_dec (s : proxy_cache_t) : Decidable (wf s) := by
  unfold wf
  infer_instance

/-! Concrete states used to evaluate the code on specific inputs.  `stBA` is
the cache after `cache_add("b", ·, 5); cache_add("a", ·, 80)` starting from
`cache_init`: list = [a(80 bytes, MRU), b(5 bytes, LRU)], size 85. -/

/-- The 5-byte entry stored for key "b". -/
def elemB5 : cache_element := ⟨"b", List.replicate 5 1, 5⟩

/-- The 80-byte entry stored for key "a". -/
def elemA80 : cache_element := ⟨"a", List.replicate 80 2, 80⟩

/-- The 90-byte entry the update of key "b" installs. -/
def elemB90 : cache_element := ⟨"b", List.replicate 90 3, 90⟩

/-- Cache after inserting b(5). -/
def stB : proxy_cache_t := ⟨[elemB5], ["b"], 5⟩

/-- Cache after inserting b(5) then a(80): a is MRU, b is LRU, size 85. -/
def stBA : proxy_cache_t := ⟨[elemA80, elemB5], ["a", "b"], 85⟩

/-- Cache produced by the subsequent `cache_add("b", ·, 90)`: the update-path
eviction loop evicted both b itself and a, erasing both keys from the map,
and the call then re-attached the (freed) node for b to the list.  The map is
empty while `current_size` is 85. -/
def stBAD : proxy_cache_t := ⟨[elemB90], [], 85⟩

/-- Cache of the spec's eviction scenario: c(26 bytes, MRU), b(27), a(26, LRU),
total 79 (the state after inserting a, b, c in that order). -/
def stCBA : proxy_cache_t :=
  ⟨[⟨"c", List.replicate 26 3, 26⟩, ⟨"b", List.replicate 27 2, 27⟩,
    ⟨"a", List.replicate 26 1, 26⟩], ["c", "b", "a"], 79⟩

/-! ## Theorems -/

theorem urls_cons (a : cache_element) (t : List cache_element) :
    urls (a :: t) = a.url :: urls t := rfl

theorem find?_url_of_mem (l : List cache_element) (e : cache_element)
    (hnd : (urls l).Nodup) (he : e ∈ l) :
    l.find? (fun x => x.url == e.url) = some e := by
  induction l with
  | nil => cases he
  | cons a t ih =>
    rw [urls_cons, List.nodup_cons] at hnd
    rcases List.mem_cons.mp he with rfl | hmem
    · exact List.find?_cons_of_pos _ (by simp)
    · have hne : ¬ (a.url == e.url) = true := by
        simp only [beq_iff_eq]
        intro hEq
        exact hnd.1 (hEq ▸ List.mem_map_of_mem _ hmem)
      rw [List.find?_cons_of_neg (p := fun x => x.url == e.url) t hne]
      exact ih hnd.2 hmem

theorem filter_url_ne_eq (l : List cache_element) (u : String)
    (h : ∀ x ∈ l, ¬ x.url = u) :
    l.filter (fun x => x.url != u) = l := by
  apply List.filter_eq_self.mpr
  intro x hx
  simpa [bne_iff_ne] using h x hx

theorem cons_filter_url_perm (l : List cache_element) (e : cache_element)
    (hnd : (urls l).Nodup) (he : e ∈ l) :
    (e :: l.filter (fun x => x.url != e.url)).Perm l := by
  induction l with
  | nil => cases he
  | cons a t ih =>
    rw [urls_cons, List.nodup_cons] at hnd
    rcases List.mem_cons.mp he with rfl | hmem
    · have hfilter : t.filter (fun x => x.url != e.url) = t := by
        apply filter_url_ne_eq
        intro x hx hEq
        exact hnd.1 (hEq ▸ List.mem_map_of_mem _ hx)
      have h1 : (e :: t).filter (fun x => x.url != e.url) = t := by
        rw [List.filter_cons_of_neg (p := fun x : cache_element => x.url != e.url)
          (by simp), hfilter]
      rw [h1]
    · have hne : ¬ a.url = e.url := by
        intro hEq
        exact hnd.1 (hEq ▸ List.mem_map_of_mem _ hmem)
      have h2 : (a :: t).filter (fun x => x.url != e.url)
          = a :: t.filter (fun x => x.url != e.url) :=
        List.filter_cons_of_pos (p := fun x : cache_element => x.url != e.url)
          (by simpa [bne_iff_ne] using hne)
      rw [h2]
      exact (List.Perm.swap a e _).trans ((ih hnd.2 hmem).cons a)

/-- Claim C3.  `cache_find`: a NULL key returns NULL without taking the lock (lock
count 0) and without touching the state; a key absent from the index returns
NULL leaving the state unchanged (acquiring and releasing the lock once);
a key present in the index returns that entry after detaching it and
re-attaching it at the head of the recency list (most recently used), the map
and `current_size` untouched, and the new recency list is a permutation of the
old one — no entry's payload bytes are mutated, and the returned entry is the
stored one. -/
theorem cache_find_spec (s : proxy_cache_t) (hwf : wf s) :
    cache_find s none = (s, none, 0) ∧
    (∀ u, ¬ u ∈ s.map → cache_find s (some u) = (s, none, 1)) ∧
    (∀ e, e ∈ s.list →
      cache_find s (some e.url)
        = ({ s with list := e :: s.list.filter (fun x => x.url != e.url) }, some e, 1) ∧
      (e :: s.list.filter (fun x => x.url != e.url)).Perm s.list) := by
  obtain ⟨hnd, hm1, hm2, hcs, hle⟩ := hwf
  refine ⟨rfl, ?_, ?_⟩
  · intro u hu
    simp [cache_find, mapFind, hu]
  · intro e he
    have hmem : e.url ∈ s.map := hm2 _ (List.mem_map_of_mem _ he)
    have hfind : s.list.find? (fun x => x.url == e.url) = some e :=
      find?_url_of_mem _ _ hnd he
    constructor
    · simp [cache_find, mapFind, hmem, hfind, attach_node_to_head_unlocked,
        detach_node_unlocked]
    · exact cons_filter_url_perm _ _ hnd he

/-- Claim C3 witness: the specification of `cache_find` instantiated on the concrete
well-formed state `stBA`. -/
theorem cache_find_spec_witness :
    wf stBA ∧
    (cache_find stBA none = (stBA, none, 0) ∧
    (∀ u, ¬ u ∈ stBA.map → cache_find stBA (some u) = (stBA, none, 1)) ∧
    (∀ e, e ∈ stBA.list →
      cache_find stBA (some e.url)
        = ({ stBA with list := e :: stBA.list.filter (fun x => x.url != e.url) },
            some e, 1) ∧
      (e :: stBA.list.filter (fun x => x.url != e.url)).Perm stBA.list)) :=
  ⟨by decide, cache_find_spec stBA (by decide)⟩

/-- Claim C7.  `cache_find` is idempotent on a present key: the first call returns
the stored entry and leaves `current_size` unchanged, and the state it
produces is a fixed point of further finds on that key — every repeated call
returns the same entry (hence the same payload bytes) and the same state, so
`current_size` is unchanged after every call. -/
theorem cache_find_idempotent (s : proxy_cache_t) (e : cache_element)
    (hwf : wf s) (he : e ∈ s.list) :
    ∃ s1, cache_find s (some e.url) = (s1, some e, 1) ∧
      s1.current_size = s.current_size ∧
      cache_find s1 (some e.url) = (s1, some e, 1) := by
  obtain ⟨hnd, hm1, hm2, hcs, hle⟩ := hwf
  have hmem : e.url ∈ s.map := hm2 _ (List.mem_map_of_mem _ he)
  have hfind : s.list.find? (fun x => x.url == e.url) = some e :=
    find?_url_of_mem _ _ hnd he
  refine ⟨{ s with list := e :: s.list.filter (fun x => x.url != e.url) }, ?_, rfl, ?_⟩
  · simp [cache_find, mapFind, hmem, hfind, attach_node_to_head_unlocked,
      detach_node_unlocked]
  · have hfind1 : (e :: s.list.filter (fun x => x.url != e.url)).find?
        (fun x => x.url == e.url) = some e :=
      List.find?_cons_of_pos _ (by simp)
    have hdetach : (e :: s.list.filter (fun x => x.url != e.url)).filter
        (fun x => x.url != e.url) = s.list.filter (fun x => x.url != e.url) := by
      rw [List.filter_cons_of_neg (p := fun x : cache_element => x.url != e.url)
        (by simp)]
      exact List.filter_eq_self.mpr
        (fun x hx => List.of_mem_filter (p := fun y : cache_element => y.url != e.url) hx)
    simp [cache_find, mapFind, hmem, hfind1, attach_node_to_head_unlocked,
      detach_node_unlocked, hdetach]

/-! Arithmetic facts about the size_t operations. -/

theorem MAX_lt_USIZE : MAX_CACHE_SIZE < USIZE := by decide

theorem addW_small (a b : Nat) (h : a + b < USIZE) : addW a b = a + b :=
  Nat.mod_eq_of_lt h

theorem subW_exact (a b : Nat) (hb : b ≤ a) (ha : a < USIZE) : subW a b = a - b := by
  unfold subW
  rw [Nat.mod_eq_of_lt (show b < USIZE from lt_of_le_of_lt hb ha)]
  have h1 : a + (USIZE - b) = (a - b) + USIZE := by
    have : b ≤ USIZE := le_of_lt (lt_of_le_of_lt hb ha)
    omega
  rw [h1, Nat.add_mod_right]
  exact Nat.mod_eq_of_lt (by omega)

/-! Structural facts about `remove_lru_element_unlocked` and the eviction
loop. -/

theorem remove_lru_concat (s : proxy_cache_t) (l : List cache_element)
    (e : cache_element) (h : s.list = l ++ [e]) :
    remove_lru_element_unlocked s =
      ⟨l, map_erase s.map e.url, subW s.current_size e.len⟩ := by
  unfold remove_lru_element_unlocked
  rw [h, List.getLast?_concat]
  simp [List.dropLast_concat]

theorem sumLens_concat (l : List cache_element) (e : cache_element) :
    sumLens (l ++ [e]) = sumLens l + e.len := by
  simp [sumLens]

/-- Characterization of the insert-path eviction loop on an accurately
accounted state: with fuel at least the list length the loop terminates, the
surviving list is a prefix (`take k`) of the input (everything evicted comes
from the tail, one element at a time, in list order), the resulting size is
the exact sum of the survivors and fits together with `L` inside the
capacity, the number of evictions is minimal (either nothing more to evict,
or keeping one more tail entry would still overflow), and exactly the evicted
keys have been erased from the map. -/
theorem evict_loop_insert_spec (L : Nat) (hL : L ≤ MAX_CACHE_SIZE) :
    ∀ fuel (s : proxy_cache_t), s.list.length ≤ fuel →
      s.current_size = sumLens s.list →
      sumLens s.list + L < USIZE →
      ∃ k t, evict_loop L fuel s = some t ∧
        k ≤ s.list.length ∧
        t.list = s.list.take k ∧
        t.current_size = sumLens t.list ∧
        sumLens t.list + L ≤ MAX_CACHE_SIZE ∧
        (k = s.list.length ∨ MAX_CACHE_SIZE < sumLens (s.list.take (k + 1)) + L) ∧
        (∀ u, u ∈ t.map ↔ (u ∈ s.map ∧ ¬ u ∈ urls (s.list.drop k))) := by
  intro fuel
  induction fuel with
  | zero =>
    intro s hlen hcs hsW
    have hnil : s.list = [] := List.length_eq_zero.mp (Nat.le_zero.mp hlen)
    have hcs0 : s.current_size = 0 := by rw [hcs, hnil]; rfl
    have hcond : ¬ MAX_CACHE_SIZE < addW s.current_size L := by
      rw [hcs0, addW_small 0 L (by have := MAX_lt_USIZE; omega)]
      omega
    refine ⟨0, s, ?_, Nat.zero_le _, by rw [hnil]; rfl, hcs, ?_, ?_, ?_⟩
    · simp only [evict_loop]
      rw [if_neg hcond]
    · rw [← hcs, hcs0]; omega
    · exact Or.inl (by rw [hnil]; rfl)
    · intro u
      simp [hnil, urls]
  | succ f ih =>
    intro s hlen hcs hsW
    have hcsW : s.current_size + L < USIZE := by rw [hcs]; exact hsW
    by_cases hcond : MAX_CACHE_SIZE < addW s.current_size L
    · have hsum_gt : MAX_CACHE_SIZE < sumLens s.list + L := by
        rw [addW_small _ _ hcsW, hcs] at hcond
        exact hcond
      have hne : s.list ≠ [] := by
        intro hnil
        rw [hnil] at hsum_gt
        simp [sumLens] at hsum_gt
        omega
      obtain ⟨l', lastE, hconcat0⟩ := (List.eq_nil_or_concat s.list).resolve_left hne
      have hconcat : s.list = l' ++ [lastE] := by
        rw [hconcat0, List.concat_eq_append]
      have hstep : evict_loop L (f + 1) s
          = evict_loop L f (remove_lru_element_unlocked s) := by
        simp only [evict_loop]
        rw [if_pos hcond]
      have hrm : remove_lru_element_unlocked s =
          ⟨l', map_erase s.map lastE.url, subW s.current_size lastE.len⟩ :=
        remove_lru_concat s l' lastE hconcat
      have hsum : sumLens s.list = sumLens l' + lastE.len := by
        rw [hconcat, sumLens_concat]
      have hlen_eq : s.list.length = l'.length + 1 := by rw [hconcat]; simp
      have hlen' : l'.length ≤ f := by omega
      have hcs' : subW s.current_size lastE.len = sumLens l' := by
        rw [hcs, hsum, subW_exact _ _ (by omega) (by omega)]
        omega
      have hsW' : sumLens l' + L < USIZE := by omega
      obtain ⟨k, t, hloop, hk, hlist, htcs, hfit, hmin, hmap⟩ :=
        ih ⟨l', map_erase s.map lastE.url, subW s.current_size lastE.len⟩
          hlen' hcs' hsW'
      dsimp only at hk hlist hmin hmap
      refine ⟨k, t, ?_, by omega, ?_, htcs, hfit, ?_, ?_⟩
      · rw [hstep, hrm]
        exact hloop
      · rw [hlist, hconcat, List.take_append_of_le_length hk]
      · rcases Nat.lt_or_ge k l'.length with hklt | hkge
        · rcases hmin with hmin | hmin
          · omega
          · refine Or.inr ?_
            have htake : s.list.take (k + 1) = l'.take (k + 1) := by
              rw [hconcat,
                List.take_append_of_le_length (show k + 1 ≤ l'.length by omega)]
            rw [htake]
            exact hmin
        · refine Or.inr ?_
          have htake : s.list.take (k + 1) = s.list := by
            apply List.take_of_length_le
            omega
          rw [htake]
          exact hsum_gt
      · intro u
        have hdrop : s.list.drop k = l'.drop k ++ [lastE] := by
          rw [hconcat, List.drop_append_of_le_length hk]
        rw [hdrop]
        have hmapu := hmap u
        have herase : u ∈ map_erase s.map lastE.url ↔ (u ∈ s.map ∧ ¬ u = lastE.url) := by
          simp [map_erase, List.mem_filter, bne_iff_ne]
        rw [hmapu, herase]
        simp only [urls, List.map_append, List.mem_append]
        simp [urls]
        tauto
    · refine ⟨s.list.length, s, ?_, le_refl _, (List.take_length _).symm, hcs, ?_,
        Or.inl rfl, ?_⟩
      · simp only [evict_loop]
        rw [if_neg hcond]
      · rw [addW_small _ _ hcsW, hcs] at hcond
        omega
      · intro u
        simp [urls]

/-- Claim C7 witness: idempotence of `cache_find` on key "a" in the concrete state
`stBA`. -/
theorem cache_find_idempotent_witness :
    wf stBA ∧ elemA80 ∈ stBA.list ∧
    (∃ s1, cache_find stBA (some elemA80.url) = (s1, some elemA80, 1) ∧
      s1.current_size = stBA.current_size ∧
      cache_find s1 (some elemA80.url) = (s1, some elemA80, 1)) :=
  ⟨by decide, by decide, cache_find_idempotent stBA elemA80 (by decide) (by decide)⟩

/-- Claim C1.  The claimed invariant — after every completed public operation,
`current_size` equals the sum of `len` over the entries reachable from the
index, and stays within the capacity — is broken by the code.  Starting from
`cache_init`, the three valid calls `cache_add("b", ·, 5)`,
`cache_add("a", ·, 80)`, `cache_add("b", ·, 90)` all complete (the eviction
loop of the third needs exactly its 2 iterations of fuel), yet after the
third call `current_size` is 85 while the index is empty, so the sum of
`len` over the entries reachable from the index is 0. -/
theorem size_invariant_violated_by_update_eviction :
    cache_add cache_init (some "b") (some (List.replicate 5 1)) 5 0 = some stB ∧
    cache_add stB (some "a") (some (List.replicate 80 2)) 80 1 = some stBA ∧
    cache_add stBA (some "b") (some (List.replicate 90 3)) 90 2 = some stBAD ∧
    stBAD.current_size = 85 ∧ indexSum stBAD = 0 ∧
    ¬ stBAD.current_size = indexSum stBAD := by
  decide

/-- Claim C9.  The update-path eviction loop does evict the entry being updated:
in state `stBA` (size invariant holds: 85 = 80 + 5 ≤ 100) the valid call
`cache_add("b", ·, 90)` finds the entry b(5), subtracts its length
(`current_size` 80), and the loop then evicts the tail — which is b itself —
and afterwards a, wrapping `current_size` through 2^64 to 2^64 - 5; the
completed call leaves key "b" erased from the index even though the update
"succeeded".  In the C code the detach/free/realloc after the loop therefore
operate on a freed node (use-after-free, double free of its payload). -/
theorem update_eviction_evicts_updated_entry :
    mapFind stBA "b" = some elemB5 ∧
    evict_loop 90 2 { stBA with current_size := subW stBA.current_size elemB5.len }
      = some ⟨[], [], USIZE - 5⟩ ∧
    cache_add stBA (some "b") (some (List.replicate 90 3)) 90 2 = some stBAD ∧
    ¬ "b" ∈ stBAD.map := by
  decide

/-- Claim C10 (counterexample).  On the update path the loop condition does not
become false by the time only the updated entry remains: updating b(5) in
`stBA` with length 90, the loop evicts the updated entry b first (it is the
tail), the condition is still true afterwards (one unit of fuel is not
enough), and the loop only stops once the list is empty, after also evicting
a. -/
theorem update_eviction_runs_past_updated_entry :
    evict_loop 90 1 { stBA with current_size := subW stBA.current_size elemB5.len }
      = none ∧
    evict_loop 90 2 { stBA with current_size := subW stBA.current_size elemB5.len }
      = some ⟨[], [], USIZE - 5⟩ ∧ ¬ elemB5 ∈ ([] : List cache_element) := by
  decide

/-- Claim C4.  A NULL key, NULL payload, zero length, or length above
`MAX_CACHE_SIZE` makes `cache_add` a silent no-op: the call returns with the
state (list, index, `current_size`) unchanged. -/
theorem cache_add_invalid_input_noop (s : proxy_cache_t) (url : Option String)
    (data : Option (List Nat)) (length fuel : Nat)
    (h : url = none ∨ data = none ∨ length = 0 ∨ MAX_CACHE_SIZE < length) :
    cache_add s url data length fuel = some s := by
  cases url with
  | none => rfl
  | some u =>
    cases data with
    | none => rfl
    | some d =>
      have hcond : length = 0 ∨ MAX_CACHE_SIZE < length := by
        rcases h with h | h | h | h
        · exact Option.noConfusion h
        · exact Option.noConfusion h
        · exact Or.inl h
        · exact Or.inr h
      simp [cache_add, hcond]

/-- Claim C4 witness: a zero-length add on the state `stBA` is a no-op. -/
theorem cache_add_invalid_input_noop_witness :
    ((some "x" : Option String) = none ∨ (some [] : Option (List Nat)) = none ∨
      (0 : Nat) = 0 ∨ MAX_CACHE_SIZE < 0) ∧
    cache_add stBA (some "x") (some []) 0 5 = some stBA :=
  ⟨Or.inr (Or.inr (Or.inl rfl)),
    cache_add_invalid_input_noop stBA (some "x") (some []) 0 5
      (Or.inr (Or.inr (Or.inl rfl)))⟩

theorem MAX_eq : MAX_CACHE_SIZE = 100 := rfl

theorem USIZE_eq : USIZE = 18446744073709551616 := rfl

theorem urls_take (l : List cache_element) (k : Nat) :
    urls (l.take k) = (urls l).take k := by
  simp [urls, List.map_take]

theorem urls_split (l : List cache_element) (k : Nat) :
    urls l = urls (l.take k) ++ urls (l.drop k) := by
  unfold urls
  rw [← List.map_append, List.take_append_drop]

/-- Claim C2.  Insert-path eviction is exact LRU.  From any well-formed cache state,
adding a fresh key whose length makes the total cross the capacity removes
entries one at a time strictly from the tail of the recency list (the
least-recently-touched side): the surviving stored entries are exactly a
prefix `take k` of the old list, the evicted ones exactly the complementary
tail suffix and exactly their keys are gone from the index, eviction stops as
soon as `current_size + length <= MAX_CACHE_SIZE` holds (keeping one more
tail entry would still overflow), the new entry sits at the head, and the
resulting state is again well formed (so the theorem applies along any
sequence of inserts whose cumulative size eventually crosses the
capacity). -/
theorem cache_add_insert_exact_lru (s : proxy_cache_t) (u : String) (d : List Nat)
    (L : Nat) (hwf : wf s) (hu : ¬ u ∈ s.map) (h0 : 0 < L)
    (hL : L ≤ MAX_CACHE_SIZE) :
    ∃ k t, cache_add s (some u) (some d) L s.list.length = some t ∧
      k ≤ s.list.length ∧
      t.list = ⟨u, d.take L, L⟩ :: s.list.take k ∧
      (∀ u', u' ∈ t.map ↔ (u' = u ∨ (u' ∈ s.map ∧ ¬ u' ∈ urls (s.list.drop k)))) ∧
      t.current_size = sumLens (s.list.take k) + L ∧
      t.current_size ≤ MAX_CACHE_SIZE ∧
      (k = s.list.length ∨ MAX_CACHE_SIZE < sumLens (s.list.take (k + 1)) + L) ∧
      wf t := by
  obtain ⟨hnd, hm1, hm2, hcs, hle⟩ := hwf
  have hsW : sumLens s.list + L < USIZE := by
    have h1 := MAX_eq
    have h2 := USIZE_eq
    omega
  obtain ⟨k, t2, hloop, hk, hlist, htcs, hfit, hmin, hmap⟩ :=
    evict_loop_insert_spec L hL s.list.length s (le_refl _) hcs hsW
  have hfind : mapFind s u = none := by simp [mapFind, hu]
  have hguard : ¬ (L = 0 ∨ MAX_CACHE_SIZE < L) := by omega
  have hfitk : sumLens (s.list.take k) + L ≤ MAX_CACHE_SIZE := by
    rw [← hlist]; exact hfit
  have hcsk : t2.current_size = sumLens (s.list.take k) := by
    rw [htcs, hlist]
  have haddW : addW t2.current_size L = sumLens (s.list.take k) + L := by
    rw [hcsk]
    exact addW_small _ _ (by have := MAX_lt_USIZE; omega)
  refine ⟨k, ⟨⟨u, d.take L, L⟩ :: t2.list, u :: t2.map, addW t2.current_size L⟩,
    ?_, hk, ?_, ?_, ?_, ?_, hmin, ?_⟩
  · simp only [cache_add, cache_add_locked, cache_add_insert, hfind, hloop,
      attach_node_to_head_unlocked]
    rw [if_neg hguard]
  · dsimp only
    rw [hlist]
  · intro u'
    dsimp only
    rw [List.mem_cons, hmap u']
  · dsimp only
    exact haddW
  · dsimp only
    rw [haddW]
    exact hfitk
  · have hndk : (urls (s.list.take k)).Nodup := by
      rw [urls_take]
      exact hnd.sublist (List.take_sublist _ _)
    have hnotin : ¬ u ∈ urls (s.list.take k) := by
      intro hin
      refine hu (hm2 _ ?_)
      rw [urls_split s.list k, List.mem_append]
      exact Or.inl hin
    have hdisj : ∀ x, x ∈ urls (s.list.take k) → ¬ x ∈ urls (s.list.drop k) := by
      have hnd2 : (urls (s.list.take k) ++ urls (s.list.drop k)).Nodup := by
        rw [← urls_split]; exact hnd
      intro x hx
      exact (List.disjoint_of_nodup_append hnd2) hx
    refine ⟨?_, ?_, ?_, ?_, ?_⟩
    · dsimp only
      rw [hlist, urls_cons, List.nodup_cons]
      exact ⟨hnotin, hndk⟩
    · intro x hx
      dsimp only at hx ⊢
      rw [hlist, urls_cons, List.mem_cons]
      rcases List.mem_cons.mp hx with rfl | hx2
      · exact Or.inl rfl
      · refine Or.inr ?_
        obtain ⟨hxs, hxdrop⟩ := (hmap x).mp hx2
        have hxl : x ∈ urls s.list := hm1 _ hxs
        rw [urls_split s.list k, List.mem_append] at hxl
        rcases hxl with hxl | hxl
        · exact hxl
        · exact absurd hxl hxdrop
    · intro x hx
      dsimp only at hx ⊢
      rw [hlist, urls_cons, List.mem_cons] at hx
      rw [List.mem_cons]
      rcases hx with rfl | hx2
      · exact Or.inl rfl
      · refine Or.inr ((hmap x).mpr ⟨?_, ?_⟩)
        · refine hm2 _ ?_
          rw [urls_split s.list k, List.mem_append]
          exact Or.inl hx2
        · exact hdisj x hx2
    · dsimp only
      rw [haddW, hlist]
      simp [sumLens]
      omega
    · dsimp only
      rw [haddW]
      exact hfitk

/-- Claim C2 witness: the spec scenario — from the well-formed state with
c(26), b(27), a(26) (total 79), adding the fresh key "d" with 36 bytes
evicts exactly the LRU entry a. -/
theorem cache_add_insert_exact_lru_witness :
    (wf stCBA ∧ ¬ "d" ∈ stCBA.map ∧ 0 < 36 ∧ 36 ≤ MAX_CACHE_SIZE) ∧
    (∃ k t, cache_add stCBA (some "d") (some (List.replicate 36 4)) 36
        stCBA.list.length = some t ∧
      k ≤ stCBA.list.length ∧
      t.list = ⟨"d", (List.replicate 36 4).take 36, 36⟩ :: stCBA.list.take k ∧
      (∀ u', u' ∈ t.map ↔
        (u' = "d" ∨ (u' ∈ stCBA.map ∧ ¬ u' ∈ urls (stCBA.list.drop k)))) ∧
      t.current_size = sumLens (stCBA.list.take k) + 36 ∧
      t.current_size ≤ MAX_CACHE_SIZE ∧
      (k = stCBA.list.length ∨
        MAX_CACHE_SIZE < sumLens (stCBA.list.take (k + 1)) + 36) ∧
      wf t) :=
  ⟨⟨by decide, by decide, by decide, by decide⟩,
    cache_add_insert_exact_lru stCBA "d" (List.replicate 36 4) 36
      (by decide) (by decide) (by decide) (by decide)⟩

/-- Claim C5.  Insert-path allocation failure: if `calloc` (the entry struct),
`strdup` (the key copy) or `malloc` (the payload buffer) fails, the call
frees every object it had allocated (allocated count = freed count, nothing
retained) and returns with the cache state exactly as it was after the
eviction phase — no partially constructed entry is reachable from the index
or the recency list. -/
theorem insert_alloc_failure_cleanup (callocOk urlOk dataOk : Bool)
    (s s2 : proxy_cache_t) (u : String) (d : List Nat) (L fuel : Nat)
    (hu : ¬ u ∈ s.map) (h0 : 0 < L) (hL : L ≤ MAX_CACHE_SIZE)
    (hloop : evict_loop L fuel s = some s2)
    (hfail : callocOk = false ∨ urlOk = false ∨ dataOk = false) :
    ∃ nA nF, cache_addA callocOk urlOk dataOk true s (some u) (some d) L fuel
        = some (s2, nA, nF, 0) ∧ nA = nF := by
  have hguard : ¬ (L = 0 ∨ MAX_CACHE_SIZE < L) := by omega
  have hfind : mapFind s u = none := by simp [mapFind, hu]
  cases callocOk with
  | false =>
    refine ⟨0, 0, ?_, rfl⟩
    simp only [cache_addA, cache_add_insertA, hfind, hloop]
    rw [if_neg hguard]
    simp
  | true =>
    have hfail2 : urlOk = false ∨ dataOk = false := by
      rcases hfail with h | h | h
      · exact absurd h (by simp)
      · exact Or.inl h
      · exact Or.inr h
    refine ⟨1 + (if urlOk then 1 else 0) + (if dataOk then 1 else 0),
            (if urlOk then 1 else 0) + (if dataOk then 1 else 0) + 1, ?_, by omega⟩
    have hud : (urlOk && dataOk) = false := by
      rcases hfail2 with h | h <;> simp [h]
    simp only [cache_addA, cache_add_insertA, hfind, hloop]
    rw [if_neg hguard]
    simp [hud]

/-- Claim C5 witness: `calloc` failing while inserting the fresh key "d" into the
scenario state leaves exactly the state the eviction phase produced, with
every allocated object freed. -/
theorem insert_alloc_failure_cleanup_witness :
    (¬ "d" ∈ stCBA.map ∧ 0 < 36 ∧ 36 ≤ MAX_CACHE_SIZE ∧
      evict_loop 36 3 stCBA = some ⟨[⟨"c", List.replicate 26 3, 26⟩,
        ⟨"b", List.replicate 27 2, 27⟩], ["c", "b"], 53⟩ ∧
      (false = false ∨ true = false ∨ true = false)) ∧
    (∃ nA nF, cache_addA false true true true stCBA (some "d")
        (some (List.replicate 36 4)) 36 3
        = some (⟨[⟨"c", List.replicate 26 3, 26⟩, ⟨"b", List.replicate 27 2, 27⟩],
            ["c", "b"], 53⟩, nA, nF, 0) ∧ nA = nF) :=
  ⟨⟨by decide, by decide, by decide, by decide, Or.inl rfl⟩,
    insert_alloc_failure_cleanup false true true stCBA
      ⟨[⟨"c", List.replicate 26 3, 26⟩, ⟨"b", List.replicate 27 2, 27⟩],
        ["c", "b"], 53⟩
      "d" (List.replicate 36 4) 36 3 (by decide) (by decide) (by decide)
      (by decide) (Or.inl rfl)⟩

/-! Lemmas about the eviction loop needed for the update path: the surviving
list is always a prefix of the input, and as long as the entry whose length
was pre-subtracted survives, the size deficit stays exactly that length. -/

theorem remove_lru_nil (s : proxy_cache_t) (h : s.list = []) :
    remove_lru_element_unlocked s = s := by
  unfold remove_lru_element_unlocked
  rw [h]
  rfl

theorem evict_loop_take (L : Nat) :
    ∀ fuel (s t : proxy_cache_t), evict_loop L fuel s = some t →
      ∃ k, t.list = s.list.take k := by
  intro fuel
  induction fuel with
  | zero =>
    intro s t h
    simp only [evict_loop] at h
    split at h
    · exact absurd h (by simp)
    · injection h with h2
      subst h2
      exact ⟨s.list.length, (List.take_length _).symm⟩
  | succ f ih =>
    intro s t h
    simp only [evict_loop] at h
    split at h
    · rcases List.eq_nil_or_concat s.list with hnil | ⟨l', lastE, hconcat0⟩
      · rw [remove_lru_nil s hnil] at h
        exact ih _ _ h
      · have hconcat : s.list = l' ++ [lastE] := by
          rw [hconcat0, List.concat_eq_append]
        rw [remove_lru_concat s l' lastE hconcat] at h
        obtain ⟨k, hk⟩ := ih _ _ h
        dsimp only at hk
        refine ⟨min k l'.length, ?_⟩
        rw [hk, hconcat]
        rw [List.take_append_of_le_length (Nat.min_le_right _ _)]
        rw [← List.take_take, List.take_length]
    · injection h with h2
      subst h2
      exact ⟨s.list.length, (List.take_length _).symm⟩

theorem len_le_sumLens (l : List cache_element) (e : cache_element) (h : e ∈ l) :
    e.len ≤ sumLens l := by
  unfold sumLens
  exact List.single_le_sum (fun a _ => Nat.zero_le a) _ (List.mem_map_of_mem _ h)

theorem sumLens_detach (l : List cache_element) (e : cache_element)
    (hnd : (urls l).Nodup) (he : e ∈ l) :
    sumLens (l.filter (fun x => x.url != e.url)) + e.len = sumLens l := by
  have hperm := (cons_filter_url_perm l e hnd he).map (fun x => x.len)
  have hsum := hperm.sum_eq
  simp only [List.map_cons, List.sum_cons] at hsum
  unfold sumLens
  omega

theorem evict_loop_update_inv (L : Nat) (e : cache_element) :
    ∀ fuel (s t : proxy_cache_t), evict_loop L fuel s = some t →
      (urls s.list).Nodup →
      s.current_size + e.len = sumLens s.list →
      s.current_size < USIZE →
      e ∈ s.list → e ∈ t.list →
      t.current_size + e.len = sumLens t.list ∧ (urls t.list).Nodup := by
  intro fuel
  induction fuel with
  | zero =>
    intro s t h hnd hcs hlt hes het
    simp only [evict_loop] at h
    split at h
    · exact absurd h (by simp)
    · injection h with h2
      subst h2
      exact ⟨hcs, hnd⟩
  | succ f ih =>
    intro s t h hnd hcs hlt hes het
    simp only [evict_loop] at h
    split at h
    · rcases List.eq_nil_or_concat s.list with hnil | ⟨l', lastE, hconcat0⟩
      · rw [hnil] at hes
        cases hes
      · have hconcat : s.list = l' ++ [lastE] := by
          rw [hconcat0, List.concat_eq_append]
        rw [remove_lru_concat s l' lastE hconcat] at h
        obtain ⟨k, hk⟩ := evict_loop_take L f _ t h
        dsimp only at hk
        have hel' : e ∈ l' := by
          rw [hk] at het
          exact List.take_subset _ _ het
        have hnd' : (urls l').Nodup := by
          rw [hconcat] at hnd
          unfold urls at hnd ⊢
          rw [List.map_append] at hnd
          exact hnd.of_append_left
        have hsum : sumLens s.list = sumLens l' + lastE.len := by
          rw [hconcat, sumLens_concat]
        have hlenle : e.len ≤ sumLens l' := len_le_sumLens _ _ hel'
        have hsub : subW s.current_size lastE.len = sumLens l' - e.len := by
          rw [subW_exact _ _ (by omega) hlt]
          omega
        refine ih _ t h hnd' ?_ ?_ hel' het
        · dsimp only
          rw [hsub]
          omega
        · dsimp only
          rw [hsub]
          omega
    · injection h with h2
      subst h2
      exact ⟨hcs, hnd⟩

/-- Claim C6.  Update-path reallocation failure: if `malloc(length)` fails while
updating an existing entry, the call erases that entry from the index
entirely and returns — its key is gone from the map, no node with its key
remains on the recency list, a subsequent `cache_find` on the key reports
"not found", and `current_size` equals the exact sum of the remaining
entries' lengths (the old size of the entry is no longer counted).  Stated
for executions in which the eviction loop does not evict the entry being
updated itself (otherwise the C code has already freed the node it is about
to manipulate — see the C9 theorem). -/
theorem update_realloc_failure_erases_entry (s : proxy_cache_t)
    (e : cache_element) (d : List Nat) (L fuel : Nat) (s2 : proxy_cache_t)
    (hwf : wf s) (he : e ∈ s.list) (h0 : 0 < L) (hL : L ≤ MAX_CACHE_SIZE)
    (hloop : evict_loop L fuel
      { s with current_size := subW s.current_size e.len } = some s2)
    (hsurv : e ∈ s2.list) :
    ∃ t, cache_addA true true true false s (some e.url) (some d) L fuel
        = some (t, 0, 0, 0) ∧
      ¬ e.url ∈ t.map ∧ (∀ x ∈ t.list, ¬ x.url = e.url) ∧
      cache_find t (some e.url) = (t, none, 1) ∧
      t.current_size = sumLens t.list := by
  obtain ⟨hnd, hm1, hm2, hcs, hle⟩ := hwf
  have hfind : mapFind s e.url = some e := by
    unfold mapFind
    rw [if_pos (hm2 _ (List.mem_map_of_mem _ he))]
    exact find?_url_of_mem _ _ hnd he
  have hguard : ¬ (L = 0 ∨ MAX_CACHE_SIZE < L) := by omega
  have helen : e.len ≤ sumLens s.list := len_le_sumLens _ _ he
  have hltU : s.current_size < USIZE := by
    have h1 := MAX_eq
    have h2 := USIZE_eq
    omega
  have hsub : subW s.current_size e.len = s.current_size - e.len :=
    subW_exact _ _ (by omega) hltU
  obtain ⟨hcs2, hnd2⟩ := evict_loop_update_inv L e fuel _ s2 hloop hnd
    (by dsimp only; rw [hsub]; omega) (by dsimp only; rw [hsub]; omega) he hsurv
  have hes2 : e.url ∈ urls s2.list := List.mem_map_of_mem _ hsurv
  refine ⟨⟨detach_node_unlocked e s2.list, map_erase s2.map e.url,
    s2.current_size⟩, ?_, ?_, ?_, ?_, ?_⟩
  · simp only [cache_addA, cache_add_updateA, hfind, hloop]
    rw [if_neg hguard]
    rfl
  · simp [map_erase, List.mem_filter]
  · intro x hx
    have hpx := List.of_mem_filter
      (p := fun y : cache_element => y.url != e.url) hx
    simpa [bne_iff_ne] using hpx
  · have hnm : ¬ e.url ∈ map_erase s2.map e.url := by
      simp [map_erase, List.mem_filter]
    simp [cache_find, mapFind, hnm]
  · dsimp only
    have hsf := sumLens_detach s2.list e hnd2 hsurv
    unfold detach_node_unlocked
    omega

/-- Claim C6 witness: in state `stBA` (a is MRU with 80 bytes, b is LRU with 5), a
90-byte update of "a" whose payload malloc fails erases "a" completely; the
remaining cache is b alone and `current_size` is the exact remaining sum. -/
theorem update_realloc_failure_erases_entry_witness :
    (wf stBA ∧ elemA80 ∈ stBA.list ∧ 0 < 90 ∧ 90 ≤ MAX_CACHE_SIZE ∧
      evict_loop 90 2 { stBA with current_size := subW stBA.current_size elemA80.len }
        = some ⟨[elemA80, elemB5], ["a", "b"], 5⟩ ∧
      elemA80 ∈ (⟨[elemA80, elemB5], ["a", "b"], 5⟩ : proxy_cache_t).list) ∧
    (∃ t, cache_addA true true true false stBA (some elemA80.url)
        (some (List.replicate 90 9)) 90 2 = some (t, 0, 0, 0) ∧
      ¬ elemA80.url ∈ t.map ∧ (∀ x ∈ t.list, ¬ x.url = elemA80.url) ∧
      cache_find t (some elemA80.url) = (t, none, 1) ∧
      t.current_size = sumLens t.list) :=
  ⟨⟨by decide, by decide, by decide, by decide, by decide, by decide⟩,
    update_realloc_failure_erases_entry stBA elemA80 (List.replicate 90 9) 90 2
      ⟨[elemA80, elemB5], ["a", "b"], 5⟩ (by decide) (by decide) (by decide)
      (by decide) (by decide) (by decide)⟩

/-! Termination of the eviction loops.  On the update path `current_size`
runs with a deficit of the old entry's length and can wrap through 2^64 once
the loop has evicted the updated entry itself; the loop still terminates
because by the time the updated entry is evicted the new length necessarily
exceeds the old one, so at the empty list the wrapped comparison
`(current_size + length) mod 2^64 <= MAX_CACHE_SIZE` holds. -/

theorem addW_deficit (x L a : Nat) (hx : x ≤ MAX_CACHE_SIZE)
    (hL : L ≤ MAX_CACHE_SIZE) (ha : a ≤ MAX_CACHE_SIZE) :
    addW ((x + (USIZE - a)) % USIZE) L
      = if a ≤ x + L then x + L - a else USIZE - (a - (x + L)) := by
  have h1 := MAX_eq
  have h2 := USIZE_eq
  unfold addW
  rw [Nat.mod_add_mod]
  split
  · have h3 : x + (USIZE - a) + L = (x + L - a) + USIZE := by omega
    rw [h3, Nat.add_mod_right]
    exact Nat.mod_eq_of_lt (by omega)
  · have h3 : x + (USIZE - a) + L = USIZE - (a - (x + L)) := by omega
    rw [h3]
    exact Nat.mod_eq_of_lt (by omega)

theorem subW_deficit (x a b : Nat) (hb : b ≤ x) (hbW : b < USIZE)
    (haW : a ≤ USIZE) :
    subW ((x + (USIZE - a)) % USIZE) b = ((x - b) + (USIZE - a)) % USIZE := by
  unfold subW
  rw [Nat.mod_eq_of_lt hbW, Nat.mod_add_mod]
  have h : x + (USIZE - a) + (USIZE - b) = ((x - b) + (USIZE - a)) + USIZE := by
    omega
  rw [h, Nat.add_mod_right]

theorem evict_loop_deficit_term (L a : Nat) (hL : L ≤ MAX_CACHE_SIZE)
    (ha : a ≤ MAX_CACHE_SIZE) :
    ∀ fuel (s : proxy_cache_t), s.list.length ≤ fuel →
      s.current_size = (sumLens s.list + (USIZE - a)) % USIZE →
      sumLens s.list ≤ MAX_CACHE_SIZE →
      (a ≤ L ∨ ∃ e ∈ s.list, e.len = a) →
      ∃ t, evict_loop L fuel s = some t := by
  intro fuel
  induction fuel with
  | zero =>
    intro s hlen hcs hsum hdisj
    have hnil : s.list = [] := List.length_eq_zero.mp (Nat.le_zero.mp hlen)
    have haL : a ≤ L := by
      rcases hdisj with h | ⟨e, hemem, _⟩
      · exact h
      · rw [hnil] at hemem
        cases hemem
    have hx0 : sumLens s.list = 0 := by rw [hnil]; rfl
    have hcd := addW_deficit (sumLens s.list) L a hsum hL ha
    rw [← hcs] at hcd
    have hcond : ¬ MAX_CACHE_SIZE < addW s.current_size L := by
      rw [hcd, if_pos (by omega)]
      omega
    refine ⟨s, ?_⟩
    simp only [evict_loop]
    rw [if_neg hcond]
  | succ f ih =>
    intro s hlen hcs hsum hdisj
    have hcd := addW_deficit (sumLens s.list) L a hsum hL ha
    rw [← hcs] at hcd
    by_cases hcond : MAX_CACHE_SIZE < addW s.current_size L
    · have hne : s.list ≠ [] := by
        intro hnil
        have haL : a ≤ L := by
          rcases hdisj with h | ⟨e, hemem, _⟩
          · exact h
          · rw [hnil] at hemem
            cases hemem
        have hx0 : sumLens s.list = 0 := by rw [hnil]; rfl
        rw [hcd, if_pos (by omega)] at hcond
        omega
      obtain ⟨l', lastE, hconcat0⟩ := (List.eq_nil_or_concat s.list).resolve_left hne
      have hconcat : s.list = l' ++ [lastE] := by
        rw [hconcat0, List.concat_eq_append]
      have hrm := remove_lru_concat s l' lastE hconcat
      have hsum2 : sumLens s.list = sumLens l' + lastE.len := by
        rw [hconcat, sumLens_concat]
      have hlen_eq : s.list.length = l'.length + 1 := by rw [hconcat]; simp
      have h1 := MAX_eq
      have h2 := USIZE_eq
      have hcs' : subW s.current_size lastE.len
          = (sumLens l' + (USIZE - a)) % USIZE := by
        rw [hcs, subW_deficit (sumLens s.list) a lastE.len (by omega) (by omega)
          (by omega)]
        have heq : sumLens s.list - lastE.len = sumLens l' := by omega
        rw [heq]
      have hdisj' : a ≤ L ∨ ∃ e ∈ l', e.len = a := by
        rcases hdisj with haL | ⟨e, hemem, helen⟩
        · exact Or.inl haL
        · rw [hconcat] at hemem
          rcases List.mem_append.mp hemem with hmem | hmem
          · exact Or.inr ⟨e, hmem, helen⟩
          · refine Or.inl ?_
            have helast : e = lastE := by simpa using hmem
            have halen : a ≤ sumLens s.list := by
              subst helast
              have := len_le_sumLens s.list e (by rw [hconcat]; simp)
              omega
            rw [hcd, if_pos (by omega)] at hcond
            omega
      have hstep : evict_loop L (f + 1) s
          = evict_loop L f (remove_lru_element_unlocked s) := by
        simp only [evict_loop]
        rw [if_pos hcond]
      obtain ⟨t, ht⟩ := ih ⟨l', map_erase s.map lastE.url,
        subW s.current_size lastE.len⟩ (by dsimp only; omega)
        (by dsimp only; exact hcs') (by dsimp only; omega) hdisj'
      refine ⟨t, ?_⟩
      rw [hstep, hrm]
      exact ht
    · refine ⟨s, ?_⟩
      simp only [evict_loop]
      rw [if_neg hcond]

/-- Claim C10 (theorem for the amended claim).  Given the size invariant at entry
and a valid call (0 < length <= MAX_CACHE_SIZE), `cache_add` terminates on
both paths with fuel equal to the number of stored entries: the insert-path
loop stops no later than at the empty list, and the update-path loop — which
may evict the updated entry itself and run on past it — also stops no later
than at the empty list, where the size_t-wrapped comparison makes the
condition false; the empty-list no-op branch of
`remove_lru_element_unlocked` is never iterated infinitely. -/
theorem cache_add_eviction_terminates (s : proxy_cache_t) (u : String)
    (d : List Nat) (L : Nat) (hwf : wf s) (h0 : 0 < L)
    (hL : L ≤ MAX_CACHE_SIZE) :
    ∃ t, cache_add s (some u) (some d) L s.list.length = some t := by
  obtain ⟨hnd, hm1, hm2, hcs, hle⟩ := hwf
  have hguard : ¬ (L = 0 ∨ MAX_CACHE_SIZE < L) := by omega
  have h1 := MAX_eq
  have h2 := USIZE_eq
  cases hfind : mapFind s u with
  | none =>
    obtain ⟨k, t2, hloop, _⟩ :=
      evict_loop_insert_spec L hL s.list.length s (le_refl _) hcs (by omega)
    refine ⟨⟨⟨u, d.take L, L⟩ :: t2.list, u :: t2.map, addW t2.current_size L⟩, ?_⟩
    simp only [cache_add, cache_add_locked, cache_add_insert, hfind, hloop,
      attach_node_to_head_unlocked]
    rw [if_neg hguard]
  | some e =>
    have hel : e ∈ s.list := by
      unfold mapFind at hfind
      split at hfind
      · exact List.mem_of_find?_eq_some hfind
      · cases hfind
    have helen : e.len ≤ sumLens s.list := len_le_sumLens _ _ hel
    have hcs1 : subW s.current_size e.len
        = (sumLens s.list + (USIZE - e.len)) % USIZE := by
      rw [hcs, subW_exact _ _ helen (by omega)]
      have h3 : sumLens s.list + (USIZE - e.len)
          = (sumLens s.list - e.len) + USIZE := by omega
      rw [h3, Nat.add_mod_right]
      exact (Nat.mod_eq_of_lt (by omega)).symm
    obtain ⟨t2, hloop⟩ := evict_loop_deficit_term L e.len hL (by omega)
      s.list.length { s with current_size := subW s.current_size e.len }
      (le_refl _) hcs1 (by dsimp only; omega) (Or.inr ⟨e, hel, rfl⟩)
    refine ⟨⟨⟨e.url, d.take L, L⟩ :: detach_node_unlocked e t2.list, t2.map,
      addW t2.current_size L⟩, ?_⟩
    simp only [cache_add, cache_add_locked, cache_add_update, hfind, hloop,
      attach_node_to_head_unlocked]
    rw [if_neg hguard]

/-- Claim C10 witness: termination of the very update call whose eviction loop runs
past the updated entry (updating b with 90 bytes in `stBA`). -/
theorem cache_add_eviction_terminates_witness :
    (wf stBA ∧ 0 < 90 ∧ 90 ≤ MAX_CACHE_SIZE) ∧
    (∃ t, cache_add stBA (some "b") (some (List.replicate 90 3)) 90
        stBA.list.length = some t) :=
  ⟨⟨by decide, by decide, by decide⟩,
    cache_add_eviction_terminates stBA "b" (List.replicate 90 3) 90
      (by decide) (by decide) (by decide)⟩

end ProxyCache
